import Mathlib

/-!
# Verification of `indexeddb-fast-search`

A shallow embedding, in Lean 4, of the core of the `indexeddb-fast-search`
TypeScript library, together with theorems settling the specification
claims about it.

The embedding covers:

* the cursor-driven range query executor
  (`FastIndexedDB.findByIndexRange`, `src/core.ts` lines 305-359, and the
  unnamed entry-point variant in the repository, lines 168-210 of that file);
* the schema-upgrade reconciler of `IndexedDBManager.openDB`
  (`src/db.ts` lines 99-176);
* the promise adapters `promisifyRequest` / `promisifyTransaction` and the
  write operations that combine them with `Promise.all`
  (`src/core.ts` lines 9-30, 113-129, 144-158, 213-227, 238-251);
* the connection bookkeeping of `IndexedDBManager`
  (`getDB`, `openDB`'s synchronous prefix, `close`; `src/db.ts`
  lines 62-70, 192-199, 236-249).

Asynchronous cursor iteration is embedded as a pure function over the
*cursor event trace*: the list of `onsuccess` deliveries carrying a record
(`CursorStep.entry`) possibly interrupted by an `onerror` delivery
(`CursorStep.fail`), exactly the order in which the storage engine fires the
request's events for the chosen range and direction.  JavaScript numbers
used as limits are embedded as `JSNum` (`Nat` or `Infinity`); option
objects whose fields may be `undefined` are embedded with `Option`.
-/

/-- A JavaScript non-negative number used as a `limit`: a natural number or
`Infinity` (the default value of `limit` in `core.ts` line 311). -/
inductive JSNum where
  | fin (n : Nat)
  | inf
deriving DecidableEq, Repr

/-- The JavaScript comparison `count < limit` for a `Nat` count and a
`JSNum` limit (`count < Infinity` is always true). -/
def JSNum.ltNum (count : Nat) : JSNum → Bool
  | .fin n => count < n
  | .inf => true

/-- Truthiness of a possibly-`undefined` JavaScript number
(`undefined` and `0` are falsy, every positive number and `Infinity`
are truthy). -/
def jsTruthyNat : Option Nat → Bool
  | none => false
  | some 0 => false
  | some (_ + 1) => true

/-- Truthiness of a possibly-`undefined` `JSNum`. -/
def jsTruthyNum : Option JSNum → Bool
  | none => false
  | some (.fin 0) => false
  | some (.fin (_ + 1)) => true
  | some .inf => true

/-- One delivery of a cursor request event: either `onsuccess` with a
cursor positioned on a record (`entry`), or `onerror` with the request's
error (which, per the DOM interface, may be `null`, hence `Option`). -/
inductive CursorStep (α : Type) where
  | entry (a : α)
  | fail (e : Option String)
deriving DecidableEq, Repr

/-- The options object accepted by both `findByIndexRange`
implementations.  The `query` and `direction` members are forwarded
verbatim to the engine's `openCursor` and only determine which ordered
event trace the engine produces, so the embedding abstracts them into the
trace itself; `limit` and `offset` are the members the executor interprets. -/
structure RangeOpts where
  limit : Option JSNum := none
  offset : Option Nat := none
deriving DecidableEq, Repr

namespace FastIndexedDB

/-- The `onsuccess`/`onerror` handler loop of
`FastIndexedDB.findByIndexRange` (`src/core.ts` lines 321-354), one
constructor case per cursor event:

* cursor `null` (trace exhausted): `resolve(results)`;
* `onerror`: `reject(cursorRequest.error)`;
* cursor on a record: if `advanced < offset` skip and `cursor.continue()`;
  else if `count < limit` push the value, bump `count`, `continue()`;
  else `resolve(results)` without touching the cursor again (the remaining
  trace is never consumed). -/
def rangeLoop (offset : Nat) (limit : JSNum) :
    List (CursorStep α) → Nat → Nat → List α → Except (Option String) (List α)
  | [], _, _, results => .ok results
  | .fail e :: _, _, _, _ => .error e
  | .entry x :: rest, advanced, count, results =>
    if advanced < offset then
      rangeLoop offset limit rest (advanced + 1) count results
    else if JSNum.ltNum count limit then
      rangeLoop offset limit rest advanced (count + 1) (results ++ [x])
    else
      .ok results

/-- `FastIndexedDB.findByIndexRange` (`src/core.ts` lines 305-359):
destructure the options with defaults `limit = Infinity`, `offset = 0`
(line 311) and run the cursor loop with `advanced = 0`, `count = 0`,
`results = []`. -/
def findByIndexRange (steps : List (CursorStep α)) (opts : RangeOpts) :
    Except (Option String) (List α) :=
  rangeLoop (opts.offset.getD 0) (opts.limit.getD .inf) steps 0 0 []

end FastIndexedDB

namespace UnnamedFastIndexedDB

/-- The cursor handler loop of the unnamed entry-point class's
`findByIndexRange` (repository file of unknown name, lines 180-209).
Unlike the `core.ts` version it tests its options by JavaScript
truthiness: `if (options.offset && skipped < options.offset)` skips,
`if (options.limit && count >= options.limit)` resolves, otherwise the
record is pushed and the cursor continued. -/
def rangeLoop (opts : RangeOpts) :
    List (CursorStep α) → Nat → Nat → List α → Except (Option String) (List α)
  | [], _, _, results => .ok results
  | .fail e :: _, _, _, _ => .error e
  | .entry x :: rest, count, skipped, results =>
    if jsTruthyNat opts.offset && skipped < opts.offset.getD 0 then
      rangeLoop opts rest count (skipped + 1) results
    else if jsTruthyNum opts.limit && !JSNum.ltNum count (opts.limit.getD .inf) then
      .ok results
    else
      rangeLoop opts rest (count + 1) skipped (results ++ [x])

/-- The unnamed variant `findByIndexRange` (lines 168-210 of its file):
options default to the empty object; counters `count` and `skipped` start
at `0`. -/
def findByIndexRange (steps : List (CursorStep α)) (opts : RangeOpts) :
    Except (Option String) (List α) :=
  rangeLoop opts steps 0 0 []

end UnnamedFastIndexedDB

/-! ## The schema model and the upgrade reconciler (`src/db.ts`) -/

/-- A key path: `string | string[]` in the TypeScript declarations. -/
inductive KeyPath where
  | single (s : String)
  | multi (l : List String)
deriving DecidableEq, Repr

/-- `IDBIndexParameters`: both members are optional booleans. -/
structure IndexOptions where
  unique : Option Bool := none
  multiEntry : Option Bool := none
deriving DecidableEq, Repr

/-- `IndexSchema` (`src/db.ts` lines 18-25): a declared index. -/
structure IndexSchema where
  name : String
  keyPath : KeyPath
  options : Option IndexOptions := none
deriving DecidableEq, Repr

/-- `StoreSchema` (`src/db.ts` lines 4-13): a declared object store; the
`keyPath`, `autoIncrement` and `indexes` members are optional. -/
structure StoreSchema where
  name : String
  keyPath : Option KeyPath := none
  autoIncrement : Option Bool := none
  indexes : Option (List IndexSchema) := none
deriving DecidableEq, Repr

/-- The engine-persisted definition of one index: the key path and options
it was created with. -/
structure PersistedIndex where
  keyPath : KeyPath
  options : Option IndexOptions
deriving DecidableEq, Repr

/-- The engine-persisted state of one object store: its structural
parameters and its indexes as an association list from index name to
persisted definition (insertion-ordered, names unique in a well-formed
store). -/
structure PersistedStore where
  keyPath : Option KeyPath
  autoIncrement : Option Bool
  indexes : List (String × PersistedIndex)
deriving DecidableEq, Repr

/-- The engine-persisted database: an association list from store name to
persisted store. -/
abbrev Database := List (String × PersistedStore)

/-- First-match association-list lookup (the map semantics of the engine's
name-keyed collections). -/
def alookup {κ β : Type} [DecidableEq κ] : List (κ × β) → κ → Option β
  | [], _ => none
  | p :: rest, k => if p.1 = k then some p.2 else alookup rest k

/-- The store persisted under a name, if any. -/
def lookupStore (db : Database) (n : String) : Option PersistedStore :=
  alookup db n

/-- `db.objectStoreNames` as a list. -/
def storeNames (db : Database) : List String :=
  db.map Prod.fst

/-- `store.indexNames` of the store persisted under `n` (empty when the
store does not exist; the reconciler only reads it for existing stores). -/
def indexNamesOf (db : Database) (n : String) : List String :=
  match lookupStore db n with
  | some st => st.indexes.map Prod.fst
  | none => []

/-- The persisted definition of index `i` of store `n`, if any. -/
def lookupIdx (db : Database) (n i : String) : Option PersistedIndex :=
  match lookupStore db n with
  | some st => alookup st.indexes i
  | none => none

/-- Engine primitive `IDBDatabase.deleteObjectStore`: removes the named
store; throws `NotFoundError` when no such store exists. -/
def deleteObjectStore (db : Database) (n : String) : Except String Database :=
  if (lookupStore db n).isSome then
    .ok (db.filter (fun p => p.1 ≠ n))
  else .error "NotFoundError: object store not found"

/-- Engine primitive `IDBDatabase.createObjectStore` with
`{ keyPath, autoIncrement }` taken from the store schema: appends a fresh
store with no indexes; throws `ConstraintError` when a store of that name
already exists. -/
def createObjectStore (db : Database) (s : StoreSchema) : Except String Database :=
  if (lookupStore db s.name).isSome then
    .error "ConstraintError: object store already exists"
  else .ok (db ++ [(s.name, ⟨s.keyPath, s.autoIncrement, []⟩)])

/-- Rewrite every persisted store named `n` with `f` (the engine mutates
the store object a handle points at; names never change). -/
def updateStore (db : Database) (n : String) (f : PersistedStore → PersistedStore) : Database :=
  db.map (fun p => if p.1 = n then (p.1, f p.2) else p)

/-- Apply `f` to a store's index list. -/
def mapIndexes (f : List (String × PersistedIndex) → List (String × PersistedIndex))
    (st : PersistedStore) : PersistedStore :=
  { st with indexes := f st.indexes }

/-- Engine primitive `IDBObjectStore.createIndex` on the store named `n`:
appends the index with the declared key path and options; throws
`ConstraintError` when the store already has an index of that name. -/
def createIndex (db : Database) (n : String) (idx : IndexSchema) : Except String Database :=
  match lookupStore db n with
  | none => .error "InvalidStateError: object store deleted"
  | some st =>
    if (alookup st.indexes idx.name).isSome then
      .error "ConstraintError: index already exists"
    else
      .ok (updateStore db n (mapIndexes (· ++ [(idx.name, ⟨idx.keyPath, idx.options⟩)])))

/-- Engine primitive `IDBObjectStore.deleteIndex` on the store named `n`:
removes the index; throws `NotFoundError` when absent. -/
def deleteIndex (db : Database) (n i : String) : Except String Database :=
  match lookupStore db n with
  | none => .error "InvalidStateError: object store deleted"
  | some st =>
    if (alookup st.indexes i).isSome then
      .ok (updateStore db n (mapIndexes (List.filter (fun p => p.1 ≠ i))))
    else .error "NotFoundError: index not found"

namespace IndexedDBManager

/-- The `existingStoreNames.forEach` deletion pass of `onupgradeneeded`
(`src/db.ts` lines 121-126): delete every persisted store whose name is
not among the desired ones.  A thrown engine error aborts the iteration
(exceptions propagate out of `forEach`). -/
def deleteStoresLoop (desired : List String) : List String → Database → Except String Database
  | [], db => .ok db
  | n :: rest, db =>
    if n ∈ desired then deleteStoresLoop desired rest db
    else
      match deleteObjectStore db n with
      | .ok db' => deleteStoresLoop desired rest db'
      | .error e => .error e

/-- The `existingIndexNames.forEach` deletion pass for one store
(`src/db.ts` lines 149-154): delete every persisted index of `storeName`
absent from the declared names. -/
def deleteIndexesLoop (storeName : String) (desired : List String) :
    List String → Database → Except String Database
  | [], db => .ok db
  | i :: rest, db =>
    if i ∈ desired then deleteIndexesLoop storeName desired rest db
    else
      match deleteIndex db storeName i with
      | .ok db' => deleteIndexesLoop storeName desired rest db'
      | .error e => .error e

/-- The `storeSchema.indexes.forEach` creation pass for one store
(`src/db.ts` lines 157-164): create every declared index whose name was
not in the `existingIndexNames` snapshot. -/
def createIndexesLoop (storeName : String) (existing : List String) :
    List IndexSchema → Database → Except String Database
  | [], db => .ok db
  | idx :: rest, db =>
    if idx.name ∈ existing then createIndexesLoop storeName existing rest db
    else
      match createIndex db storeName idx with
      | .ok db' => createIndexesLoop storeName existing rest db'
      | .error e => .error e

/-- The body of `this.stores.forEach(storeSchema => ...)` for one store
schema (`src/db.ts` lines 129-166): create the store when its name is not
in the pre-upgrade `existingStoreNames` snapshot, otherwise obtain the
existing store via `transaction.objectStore` (which throws when the store
is gone); then, only when the schema's `indexes` member is present, read
the store's current index names and run the two index passes against that
snapshot. -/
def reconcileStore (existingStoreNames : List String) (s : StoreSchema) (db : Database) :
    Except String Database :=
  match
    (if s.name ∈ existingStoreNames then
      if (lookupStore db s.name).isSome then Except.ok db
      else Except.error "NotFoundError: object store not found"
    else createObjectStore db s) with
  | .error e => .error e
  | .ok db' =>
    match s.indexes with
    | none => .ok db'
    | some idxs =>
      let existingIndexNames := indexNamesOf db' s.name
      let desiredIndexNames := idxs.map IndexSchema.name
      match deleteIndexesLoop s.name desiredIndexNames existingIndexNames db' with
      | .error e => .error e
      | .ok db'' => createIndexesLoop s.name existingIndexNames idxs db''

/-- `this.stores.forEach` over all declared store schemas. -/
def reconcileStoresLoop (existingStoreNames : List String) :
    List StoreSchema → Database → Except String Database
  | [], db => .ok db
  | s :: rest, db =>
    match reconcileStore existingStoreNames s db with
    | .ok db' => reconcileStoresLoop existingStoreNames rest db'
    | .error e => .error e

/-- The schema-management `try` block of `onupgradeneeded`
(`src/db.ts` lines 116-167): snapshot the persisted store names, delete
the undesired stores, then reconcile each declared store schema against
that snapshot. -/
def reconcile (stores : List StoreSchema) (db : Database) : Except String Database :=
  let existingStoreNames := storeNames db
  let desiredStoreNames := stores.map StoreSchema.name
  match deleteStoresLoop desiredStoreNames existingStoreNames db with
  | .error e => .error e
  | .ok db' => reconcileStoresLoop existingStoreNames stores db'

/-- Outcome of the `openDB` promise as far as the upgrade path decides it. -/
inductive OpenOutcome where
  | success
  | rejected (msg : String)
deriving DecidableEq, Repr

/-- The upgrade path of `openDB` (`src/db.ts` lines 99-176): run the
schema-management block; on success the upgrade transaction auto-commits
the mutated database; on a thrown error the `catch` block calls
`transaction.abort()` — the engine then discards every structural change
of the transaction, leaving the pre-upgrade database — and rejects the
open promise with `Schema upgrade failed: <message>`.  Returns the
database that ends up persisted, paired with the promise outcome. -/
def runUpgrade (stores : List StoreSchema) (db : Database) : Database × OpenOutcome :=
  match reconcile stores db with
  | .ok db' => (db', .success)
  | .error e => (db, .rejected ("Schema upgrade failed: " ++ e))

end IndexedDBManager

/-- The persisted form of a declared index (`createIndex` stores its key
path and options verbatim). -/
def persistedIndexOf (i : IndexSchema) : PersistedIndex :=
  ⟨i.keyPath, i.options⟩

/-- Specification-level description of one store's index list after
reconciliation against declared indexes `l`: the persisted indexes whose
names are still declared, in their original order and with their original
definitions, followed by the newly declared ones in declaration order. -/
def reconciledIndexes (pidx : List (String × PersistedIndex)) (l : List IndexSchema) :
    List (String × PersistedIndex) :=
  pidx.filter (fun p => p.1 ∈ l.map IndexSchema.name)
    ++ (l.filter (fun i => i.name ∉ pidx.map Prod.fst)).map
        (fun i => (i.name, persistedIndexOf i))

/-- Specification-level description of one store after its schema has been
reconciled: a pre-existing store keeps its structural parameters and has
its indexes reconciled (not at all when the schema omits `indexes`); a
fresh store takes the declared parameters and indexes. -/
def reconciledStore (orig : Option PersistedStore) (s : StoreSchema) : PersistedStore :=
  match orig with
  | some st =>
    { st with indexes :=
        match s.indexes with
        | none => st.indexes
        | some l => reconciledIndexes st.indexes l }
  | none =>
    { keyPath := s.keyPath, autoIncrement := s.autoIncrement,
      indexes :=
        match s.indexes with
        | none => []
        | some l => reconciledIndexes [] l }

/-- Well-formedness of a persisted database, maintained by the engine:
store names are unique, and each store's index names are unique. -/
def WFdb (db : Database) : Prop :=
  (storeNames db).Nodup ∧ ∀ p ∈ db, (p.2.indexes.map Prod.fst).Nodup

/-! ## Promise adapters and write operations (`src/core.ts`) -/

/-- Settlement of a promise: resolved with a value or rejected with a
JavaScript error value (possibly `null`, hence `Option`). -/
inductive POutcome (α : Type) where
  | resolved (a : α)
  | rejected (e : Option String)
deriving DecidableEq, Repr

/-- The terminal event an `IDBRequest` fires: `onsuccess` carrying
`request.result`, or `onerror` carrying the (possibly `null`) error of the
event target. -/
inductive ReqEvent (α : Type) where
  | success (result : α)
  | failure (e : Option String)
deriving DecidableEq, Repr

/-- The terminal event of an `IDBTransaction`: `oncomplete`, `onerror`
or `onabort`, the latter two carrying the (possibly `null`)
`transaction.error`. -/
inductive TxEnd where
  | complete
  | error (e : Option String)
  | abort (e : Option String)
deriving DecidableEq, Repr

/-- `promisifyRequest` (`src/core.ts` lines 9-15): resolve with the
request's result on success, reject with the event target's error on
error. -/
def promisifyRequest : ReqEvent α → POutcome α
  | .success r => .resolved r
  | .failure e => .rejected e

/-- `promisifyTransaction` (`src/core.ts` lines 24-30): resolve on
`oncomplete`, reject with `transaction.error` on `onerror`, and on
`onabort` reject with `transaction.error ?? new Error('Transaction
aborted')`. -/
def promisifyTransaction : TxEnd → POutcome Unit
  | .complete => .resolved ()
  | .error e => .rejected e
  | .abort e => .rejected (some (e.getD "Transaction aborted"))

/-- `Promise.all` over two promises, at the settlement level: resolved
with the pair when both resolve, otherwise rejected with one of the
rejection reasons.  (Temporally `Promise.all` rejects with the first
rejection to settle; which reason wins when both reject is immaterial to
the claims, so the embedding picks the first argument's.) -/
def promiseAll2 : POutcome α → POutcome β → POutcome (α × β)
  | .rejected e, _ => .rejected e
  | .resolved _, .rejected e => .rejected e
  | .resolved a, .resolved b => .resolved (a, b)

namespace FastIndexedDB

/-- `FastIndexedDB.add` (`src/core.ts` lines 113-129) as a function of the
terminal events of its `store.add` request and its owning transaction:
`Promise.all([addPromise, transactionPromise])`, returning the key from
the add request; the `catch` re-throws after logging. -/
def add (reqEv : ReqEvent κ) (txEv : TxEnd) : POutcome κ :=
  match promiseAll2 (promisifyRequest reqEv) (promisifyTransaction txEv) with
  | .resolved (k, _) => .resolved k
  | .rejected e => .rejected e

/-- `FastIndexedDB.put` (`src/core.ts` lines 144-158): same structure as
`add`. -/
def put (reqEv : ReqEvent κ) (txEv : TxEnd) : POutcome κ :=
  match promiseAll2 (promisifyRequest reqEv) (promisifyTransaction txEv) with
  | .resolved (k, _) => .resolved k
  | .rejected e => .rejected e

/-- `FastIndexedDB.delete` (`src/core.ts` lines 213-227): the delete
request's `undefined` result is mapped to void, then
`Promise.all([deletePromise, transactionPromise])` is awaited. -/
def delete (reqEv : ReqEvent Unit) (txEv : TxEnd) : POutcome Unit :=
  match promiseAll2 (promisifyRequest reqEv) (promisifyTransaction txEv) with
  | .resolved _ => .resolved ()
  | .rejected e => .rejected e

/-- `FastIndexedDB.clear` (`src/core.ts` lines 238-251): same structure as
`delete`. -/
def clear (reqEv : ReqEvent Unit) (txEv : TxEnd) : POutcome Unit :=
  match promiseAll2 (promisifyRequest reqEv) (promisifyTransaction txEv) with
  | .resolved _ => .resolved ()
  | .rejected e => .rejected e

/-- `FastIndexedDB.get` (`src/core.ts` lines 169-180) over the records of
the stores: `getTransaction` throws `NotFoundError` when the named store
does not exist (rejecting the call); otherwise `store.get(key)` is issued
— an engine get request on an existing store fires `onsuccess` with the
matching record or with `undefined` when no record matches — and
`promisifyRequest` resolves with that result; the transaction's completion
is deliberately not awaited for this read. -/
def get {κ V : Type} [DecidableEq κ] (stores : List (String × List (κ × V)))
    (storeName : String) (key : κ) : POutcome (Option V) :=
  match alookup stores storeName with
  | none => .rejected (some "NotFoundError: object store not found")
  | some recs => promisifyRequest (ReqEvent.success (alookup recs key))

end FastIndexedDB

/-! ## Connection bookkeeping (`src/db.ts`) -/

/-- Observable state of one `IndexedDBManager` together with counters of
the engine calls it has issued: `db` is the `this.db` field (a handle
identifier when a connection is open), `openRequests` counts
`indexedDB.open` calls, `closeCalls` counts `db.close()` calls forwarded
to the engine. -/
structure ManagerState where
  db : Option Nat
  openRequests : Nat
  closeCalls : Nat
deriving DecidableEq, Repr

namespace IndexedDBManager

/-- The synchronous prefix of `IndexedDBManager.getDB` (`src/db.ts` lines
192-199) together with the synchronous prefix of `openDB` (lines 62-70),
up to the first suspension: when `this.db` is `null`, `getDB` calls
`openDB`, which re-checks `this.db`, still finds `null`, issues
`indexedDB.open` and suspends awaiting its events — `this.db` is only
assigned later, inside the open request's `onsuccess` handler (line 79).
When `this.db` is set, no open request is issued on any path: either the
liveness probe passes and `getDB` returns the handle, or it fails and
`openDB` is called but immediately resolves with the existing handle
(line 64). -/
def getDBStart (s : ManagerState) : ManagerState :=
  match s.db with
  | none => { s with openRequests := s.openRequests + 1 }
  | some _ => s

/-- Delivery of `onsuccess` for a pending open request (`src/db.ts` lines
78-97): assigns `this.db` to the freshly opened handle. -/
def openSuccess (s : ManagerState) (handle : Nat) : ManagerState :=
  { s with db := some handle }

/-- `IndexedDBManager.close` (`src/db.ts` lines 236-249): when a handle is
held, forward `close()` to it and null the field; the whole body is
guarded by `if (this.db)`, so with no handle nothing happens at all. -/
def close (s : ManagerState) : ManagerState :=
  match s.db with
  | some _ => { s with db := none, closeCalls := s.closeCalls + 1 }
  | none => s

end IndexedDBManager

/-! ## Lemmas about the range cursor loop -/

namespace FastIndexedDB

/-- On an error-free trace the `core.ts` loop with a finite limit resolves
with the accumulated prefix followed by `drop`/`take` of the remaining
entries, for any intermediate counter values. -/
theorem rangeLoop_entries_fin (offset n : Nat) :
    ∀ (xs : List α) (advanced count : Nat) (acc : List α),
      advanced ≤ offset → count ≤ n →
      rangeLoop offset (.fin n) (xs.map .entry) advanced count acc =
        .ok (acc ++ (xs.drop (offset - advanced)).take (n - count)) := by
  intro xs
  induction xs with
  | nil => intro advanced count acc _ _; simp [rangeLoop]
  | cons x rest ih =>
    intro advanced count acc hadv hcnt
    by_cases h : advanced < offset
    · have h1 : offset - advanced = (offset - (advanced + 1)) + 1 := by omega
      simp only [List.map_cons, rangeLoop, if_pos h]
      rw [ih (advanced + 1) count acc (by omega) hcnt, h1]
      simp
    · have hadv' : advanced = offset := by omega
      by_cases h2 : count < n
      · have h3 : n - count = (n - (count + 1)) + 1 := by omega
        simp only [List.map_cons, rangeLoop, if_neg h, JSNum.ltNum, h2]
        rw [ih advanced (count + 1) (acc ++ [x]) hadv (by omega)]
        subst hadv'
        simp [h3, List.take_cons]
      · have hc : count = n := by omega
        simp only [List.map_cons, rangeLoop, if_neg h, JSNum.ltNum, h2]
        simp [hadv', hc]

/-- With limit `Infinity` the loop collects every remaining entry past the
offset. -/
theorem rangeLoop_entries_inf (offset : Nat) :
    ∀ (xs : List α) (advanced count : Nat) (acc : List α),
      advanced ≤ offset →
      rangeLoop offset .inf (xs.map .entry) advanced count acc =
        .ok (acc ++ xs.drop (offset - advanced)) := by
  intro xs
  induction xs with
  | nil => intro advanced count acc _; simp [rangeLoop]
  | cons x rest ih =>
    intro advanced count acc hadv
    by_cases h : advanced < offset
    · have h1 : offset - advanced = (offset - (advanced + 1)) + 1 := by omega
      simp only [List.map_cons, rangeLoop, if_pos h]
      rw [ih (advanced + 1) count acc (by omega), h1]
      simp
    · have hadv' : advanced = offset := by omega
      simp only [List.map_cons, rangeLoop, if_neg h, JSNum.ltNum]
      rw [ih advanced (count + 1) (acc ++ [x]) hadv]
      simp [hadv']

/-- If the trace contains an `onerror` delivery that the loop actually
reaches (no early resolve strictly inside the entry prefix, i.e. the
prefix is not longer than `offset + limit` when the limit is finite),
the loop rejects with that error, discarding the accumulator. -/
theorem rangeLoop_fail (offset : Nat) (limit : JSNum) :
    ∀ (xs : List α) (e : Option String) (rest : List (CursorStep α))
      (advanced count : Nat) (acc : List α),
      advanced ≤ offset →
      (∀ n, limit = .fin n →
        count ≤ n ∧ xs.length ≤ (offset - advanced) + (n - count)) →
      rangeLoop offset limit (xs.map .entry ++ .fail e :: rest) advanced count acc =
        .error e := by
  intro xs
  induction xs with
  | nil => intro e rest advanced count acc _ _; simp [rangeLoop]
  | cons x xs' ih =>
    intro e rest advanced count acc hadv hfin
    by_cases h : advanced < offset
    · simp only [List.map_cons, List.cons_append, rangeLoop, if_pos h]
      exact ih e rest (advanced + 1) count acc (by omega)
        (fun n hn => by have := hfin n hn; simp at this ⊢; omega)
    · have hadv' : advanced = offset := by omega
      cases limit with
      | inf =>
        simp only [List.map_cons, List.cons_append, rangeLoop, if_neg h, JSNum.ltNum]
        exact ih e rest advanced (count + 1) (acc ++ [x]) hadv (by simp)
      | fin n =>
        obtain ⟨hcn, hlen⟩ := hfin n rfl
        have h2 : count < n := by simp at hlen; omega
        simp only [List.map_cons, List.cons_append, rangeLoop, if_neg h, JSNum.ltNum, h2]
        exact ih e rest advanced (count + 1) (acc ++ [x]) hadv
          (fun m hm => by cases hm; constructor <;> (simp at hlen ⊢; omega))

end FastIndexedDB


/-- The two cursor loops agree — for any option pair in which the limit is
not the literal `0` (omitted, `Infinity`, or positive) — at every
intermediate counter state.  (`advanced` in `core.ts` plays the role of
`skipped` in the unnamed variant; the counter argument orders differ the
same way they do in the two sources.) -/
theorem rangeLoop_agree {α : Type} (lim : Option JSNum) (off : Option Nat)
    (hlim : ∀ k, lim = some (.fin k) → 1 ≤ k) :
    ∀ (steps : List (CursorStep α)) (skipped count : Nat) (acc : List α),
      FastIndexedDB.rangeLoop (off.getD 0) (lim.getD .inf) steps skipped count acc =
        UnnamedFastIndexedDB.rangeLoop ⟨lim, off⟩ steps count skipped acc := by
  intro steps
  induction steps with
  | nil =>
    intro skipped count acc
    simp [FastIndexedDB.rangeLoop, UnnamedFastIndexedDB.rangeLoop]
  | cons s rest ih =>
    intro skipped count acc
    cases s with
    | fail e => simp [FastIndexedDB.rangeLoop, UnnamedFastIndexedDB.rangeLoop]
    | entry x =>
      by_cases hs : skipped < off.getD 0
      · have htr : jsTruthyNat off = true := by
          cases off with
          | none => simp at hs
          | some m =>
            cases m with
            | zero => simp at hs
            | succ m => rfl
        simp only [FastIndexedDB.rangeLoop, UnnamedFastIndexedDB.rangeLoop, if_pos hs, htr,
          Bool.true_and, hs, decide_True, if_true]
        exact ih (skipped + 1) count acc
      · by_cases hl : JSNum.ltNum count (lim.getD .inf) = true
        · simp only [FastIndexedDB.rangeLoop, UnnamedFastIndexedDB.rangeLoop, if_neg hs, hs,
            decide_False, Bool.and_false, Bool.false_eq_true, if_false, hl, if_true,
            Bool.not_true, Bool.and_false]
          exact ih skipped (count + 1) (acc ++ [x])
        · have htr : jsTruthyNum lim = true := by
            cases lim with
            | none => simp [JSNum.ltNum] at hl
            | some l =>
              cases l with
              | inf => simp [JSNum.ltNum] at hl
              | fin k =>
                have hk := hlim k rfl
                cases k with
                | zero => omega
                | succ k => rfl
          simp only [FastIndexedDB.rangeLoop, UnnamedFastIndexedDB.rangeLoop, if_neg hs, hs,
            decide_False, Bool.and_false, Bool.false_eq_true, if_false, hl, htr,
            Bool.not_eq_true', Bool.true_and]
          simp [hl]

/-! ## Association-list lemmas -/

section AListLemmas

variable {κ β : Type} [DecidableEq κ]

theorem alookup_isSome_iff (l : List (κ × β)) (k : κ) :
    (alookup l k).isSome ↔ k ∈ l.map Prod.fst := by
  induction l with
  | nil => simp [alookup]
  | cons p rest ih =>
    by_cases h : p.1 = k
    · simp [alookup, h]
    · simp only [alookup, if_neg h, List.map_cons, List.mem_cons, ih]
      constructor
      · exact Or.inr
      · rintro (h' | h')
        · exact absurd h'.symm h
        · exact h'

theorem alookup_eq_none_iff (l : List (κ × β)) (k : κ) :
    alookup l k = none ↔ k ∉ l.map Prod.fst := by
  rw [← alookup_isSome_iff, ← Option.not_isSome_iff_eq_none]

theorem alookup_append_left {l : List (κ × β)} {k : κ} {v : β}
    (h : alookup l k = some v) (m : List (κ × β)) :
    alookup (l ++ m) k = some v := by
  induction l with
  | nil => simp [alookup] at h
  | cons p rest ih =>
    by_cases hp : p.1 = k
    · simpa [alookup, hp] using h
    · simp only [alookup, if_neg hp] at h ⊢
      exact ih h

theorem alookup_append_right {l : List (κ × β)} {k : κ}
    (h : alookup l k = none) (m : List (κ × β)) :
    alookup (l ++ m) k = alookup m k := by
  induction l with
  | nil => simp
  | cons p rest ih =>
    by_cases hp : p.1 = k
    · simp [alookup, hp] at h
    · simp only [alookup, if_neg hp] at h ⊢
      exact ih h

theorem alookup_filter_of_key_true {f : κ × β → Bool} {k : κ}
    (hf : ∀ p : κ × β, p.1 = k → f p = true) (l : List (κ × β)) :
    alookup (l.filter f) k = alookup l k := by
  induction l with
  | nil => simp
  | cons p rest ih =>
    by_cases hp : p.1 = k
    · rw [List.filter_cons, if_pos (by simp [hf p hp])]
      simp [alookup, hp]
    · rw [List.filter_cons]
      by_cases hfp : f p = true
      · rw [if_pos (by simp [hfp])]
        simp only [alookup, if_neg hp]
        exact ih
      · rw [if_neg (by simpa using hfp)]
        simp only [alookup, if_neg hp]
        exact ih

theorem alookup_filter_of_key_false {f : κ × β → Bool} {k : κ}
    (hf : ∀ p : κ × β, p.1 = k → f p = false) (l : List (κ × β)) :
    alookup (l.filter f) k = none := by
  induction l with
  | nil => simp [alookup]
  | cons p rest ih =>
    by_cases hp : p.1 = k
    · rw [List.filter_cons, if_neg (by simp [hf p hp])]
      exact ih
    · rw [List.filter_cons]
      by_cases hfp : f p = true
      · rw [if_pos (by simp [hfp])]
        simp only [alookup, if_neg hp]
        exact ih
      · rw [if_neg (by simpa using hfp)]
        exact ih

theorem alookup_filter_none {f : κ × β → Bool} {k : κ} {l : List (κ × β)}
    (h : alookup l k = none) : alookup (l.filter f) k = none := by
  rw [alookup_eq_none_iff] at h ⊢
  intro hmem
  obtain ⟨p, hp, hfst⟩ := List.mem_map.mp hmem
  exact h (List.mem_map.mpr ⟨p, (List.mem_filter.mp hp).1, hfst⟩)

theorem alookup_mem {l : List (κ × β)} {k : κ} {v : β}
    (h : alookup l k = some v) : (k, v) ∈ l := by
  induction l with
  | nil => simp [alookup] at h
  | cons p rest ih =>
    by_cases hp : p.1 = k
    · simp only [alookup, if_pos hp, Option.some.injEq] at h
      have hpv : p = (k, v) := Prod.ext_iff.mpr ⟨hp, h⟩
      rw [hpv]
      exact List.mem_cons_self _ _
    · simp only [alookup, if_neg hp] at h
      exact List.mem_cons_of_mem _ (ih h)

theorem alookup_of_mem_nodup {l : List (κ × β)} {k : κ} {v : β}
    (hnd : (l.map Prod.fst).Nodup) (h : (k, v) ∈ l) : alookup l k = some v := by
  induction l with
  | nil => simp at h
  | cons p rest ih =>
    simp only [List.map_cons, List.nodup_cons] at hnd
    rcases List.mem_cons.mp h with h' | h'
    · simp [alookup, ← h']
    · by_cases hp : p.1 = k
      · exfalso
        exact hnd.1 (hp ▸ List.mem_map.mpr ⟨(k, v), h', rfl⟩)
      · simp only [alookup, if_neg hp]
        exact ih hnd.2 h'

end AListLemmas

/-! ## Lemmas about the persisted-database operations -/

theorem storeNames_updateStore (db : Database) (n : String)
    (f : PersistedStore → PersistedStore) :
    storeNames (updateStore db n f) = storeNames db := by
  simp only [storeNames, updateStore, List.map_map]
  apply List.map_congr_left
  intro p _
  by_cases h : p.1 = n <;> simp [h]

theorem lookupStore_updateStore_self (db : Database) (n : String)
    (f : PersistedStore → PersistedStore) :
    lookupStore (updateStore db n f) n = (lookupStore db n).map f := by
  induction db with
  | nil => simp [lookupStore, updateStore, alookup]
  | cons p rest ih =>
    by_cases h : p.1 = n
    · simp [lookupStore, updateStore, alookup, h]
    · simp only [lookupStore, updateStore, List.map_cons, if_neg h, alookup] at ih ⊢
      exact ih

theorem lookupStore_updateStore_ne (db : Database) (n : String)
    (f : PersistedStore → PersistedStore) (m : String) (h : m ≠ n) :
    lookupStore (updateStore db n f) m = lookupStore db m := by
  induction db with
  | nil => simp [lookupStore, updateStore]
  | cons p rest ih =>
    by_cases hp : p.1 = n
    · have : p.1 ≠ m := by rw [hp]; exact fun hc => h hc.symm
      simp only [lookupStore, updateStore, List.map_cons, if_pos hp, alookup] at ih ⊢
      rw [if_neg this, if_neg this]
      exact ih
    · simp only [lookupStore, updateStore, List.map_cons, if_neg hp, alookup] at ih ⊢
      by_cases hm : p.1 = m
      · rw [if_pos hm, if_pos hm]
      · rw [if_neg hm, if_neg hm]
        exact ih

theorem updateStore_updateStore (db : Database) (n : String)
    (f g : PersistedStore → PersistedStore) :
    updateStore (updateStore db n f) n g = updateStore db n (fun st => g (f st)) := by
  simp only [updateStore, List.map_map]
  apply List.map_congr_left
  intro p _
  by_cases h : p.1 = n <;> simp [h]

theorem updateStore_id (db : Database) (n : String) :
    updateStore db n (fun st => st) = db := by
  simp only [updateStore]
  apply List.map_id''
  intro p
  split <;> rfl

theorem mapIndexes_mapIndexes (f g : List (String × PersistedIndex) → List (String × PersistedIndex))
    (st : PersistedStore) :
    mapIndexes f (mapIndexes g st) = mapIndexes (fun xs => f (g xs)) st := rfl

theorem storeNames_append (db : Database) (q : Database) :
    storeNames (db ++ q) = storeNames db ++ storeNames q := by
  simp [storeNames]

/-! ## The deletion pass over stores -/

theorem deleteStoresLoop_eq (desired : List String) :
    ∀ (ns : List String) (db : Database),
      ns.Nodup →
      (∀ n ∈ ns, n ∉ desired → (lookupStore db n).isSome) →
      IndexedDBManager.deleteStoresLoop desired ns db =
        .ok (db.filter (fun p => p.1 ∈ desired ∨ p.1 ∉ ns)) := by
  intro ns
  induction ns with
  | nil =>
    intro db _ _
    simp only [IndexedDBManager.deleteStoresLoop]
    rw [List.filter_eq_self.mpr (by intro a _; simp)]
  | cons n rest ih =>
    intro db hnd hsome
    simp only [List.nodup_cons] at hnd
    by_cases hdes : n ∈ desired
    · simp only [IndexedDBManager.deleteStoresLoop, if_pos hdes]
      rw [ih db hnd.2 (fun m hm hmd => hsome m (List.mem_cons_of_mem _ hm) hmd)]
      have hcong : ∀ p ∈ db,
          (decide (p.1 ∈ desired ∨ p.1 ∉ rest)) =
            (decide (p.1 ∈ desired ∨ p.1 ∉ n :: rest)) := by
        intro p _
        by_cases hp : p.1 = n
        · simp [hp, hdes]
        · simp [List.mem_cons, hp]
      rw [List.filter_congr hcong]
    · have hs := hsome n (List.mem_cons_self _ _) hdes
      have hdel : deleteObjectStore db n = .ok (db.filter (fun p => p.1 ≠ n)) := by
        simp [deleteObjectStore, hs]
      simp only [IndexedDBManager.deleteStoresLoop, if_neg hdes, hdel]
      have hcond : ∀ m ∈ rest, m ∉ desired →
          (lookupStore (db.filter (fun p => p.1 ≠ n)) m).isSome := by
        intro m hm hmd
        have hmn : m ≠ n := fun h => hnd.1 (h ▸ hm)
        have horig := hsome m (List.mem_cons_of_mem _ hm) hmd
        show (alookup (db.filter (fun p => decide (p.1 ≠ n))) m).isSome
        rw [alookup_filter_of_key_true (fun p hp => by simp [hp, hmn])]
        exact horig
      rw [ih _ hnd.2 hcond, List.filter_filter]
      have hcong : ∀ p ∈ db,
          ((decide (p.1 ∈ desired ∨ p.1 ∉ rest)) && (decide (p.1 ≠ n))) =
            (decide (p.1 ∈ desired ∨ p.1 ∉ n :: rest)) := by
        intro p _
        by_cases hp : p.1 = n
        · simp [hp, hdes]
        · simp [List.mem_cons, hp]
      rw [List.filter_congr hcong]

/-- Running the deletion pass over the snapshot of a well-formed database's
own store names keeps exactly the stores with desired names. -/
theorem deleteStores_start (db : Database) (desired : List String)
    (hwf : (storeNames db).Nodup) :
    IndexedDBManager.deleteStoresLoop desired (storeNames db) db =
      .ok (db.filter (fun p => p.1 ∈ desired)) := by
  rw [deleteStoresLoop_eq desired (storeNames db) db hwf
    (fun n hn _ => (alookup_isSome_iff db n).mpr hn)]
  have hcong : ∀ p ∈ db,
      (decide (p.1 ∈ desired ∨ p.1 ∉ storeNames db)) = (decide (p.1 ∈ desired)) := by
    intro p hp
    have : p.1 ∈ storeNames db := List.mem_map.mpr ⟨p, hp, rfl⟩
    simp [this]
  rw [List.filter_congr hcong]

/-! ## The index passes over one store -/

theorem deleteIndexesLoop_eq (stn : String) (desired : List String) :
    ∀ (ns : List String) (db : Database) (st : PersistedStore),
      lookupStore db stn = some st →
      ns.Nodup →
      (∀ i ∈ ns, i ∉ desired → (alookup st.indexes i).isSome) →
      IndexedDBManager.deleteIndexesLoop stn desired ns db =
        .ok (updateStore db stn
          (mapIndexes (List.filter (fun p => p.1 ∈ desired ∨ p.1 ∉ ns)))) := by
  intro ns
  induction ns with
  | nil =>
    intro db st _ _ _
    have hf : mapIndexes
        (List.filter (fun p : String × PersistedIndex =>
          p.1 ∈ desired ∨ p.1 ∉ ([] : List String))) = fun st => st := by
      funext st
      simp only [mapIndexes]
      rw [List.filter_eq_self.mpr (by intro a _; simp)]
    simp only [IndexedDBManager.deleteIndexesLoop]
    rw [hf, updateStore_id]
  | cons i rest ih =>
    intro db st hst hnd hsome
    simp only [List.nodup_cons] at hnd
    by_cases hdes : i ∈ desired
    · simp only [IndexedDBManager.deleteIndexesLoop, if_pos hdes]
      rw [ih db st hst hnd.2 (fun j hj hjd => hsome j (List.mem_cons_of_mem _ hj) hjd)]
      have hfun : (fun p : String × PersistedIndex => decide (p.1 ∈ desired ∨ p.1 ∉ rest)) =
          (fun p => decide (p.1 ∈ desired ∨ p.1 ∉ i :: rest)) := by
        funext p
        by_cases hp : p.1 = i
        · simp [hp, hdes]
        · simp [List.mem_cons, hp]
      rw [hfun]
    · have hs := hsome i (List.mem_cons_self _ _) hdes
      have hdel : deleteIndex db stn i =
          .ok (updateStore db stn (mapIndexes (List.filter (fun p => p.1 ≠ i)))) := by
        simp [deleteIndex, hst, hs]
      simp only [IndexedDBManager.deleteIndexesLoop, if_neg hdes, hdel]
      have hst' : lookupStore (updateStore db stn (mapIndexes (List.filter (fun p => p.1 ≠ i)))) stn =
          some (mapIndexes (List.filter (fun p => p.1 ≠ i)) st) := by
        rw [lookupStore_updateStore_self, hst]
        rfl
      have hcond : ∀ j ∈ rest, j ∉ desired →
          (alookup (mapIndexes (List.filter (fun p => p.1 ≠ i)) st).indexes j).isSome := by
        intro j hj hjd
        have hji : j ≠ i := fun h => hnd.1 (h ▸ hj)
        show (alookup (st.indexes.filter (fun p => decide (p.1 ≠ i))) j).isSome
        rw [alookup_filter_of_key_true (fun p hp => by simp [hp, hji])]
        exact hsome j (List.mem_cons_of_mem _ hj) hjd
      rw [ih _ _ hst' hnd.2 hcond, updateStore_updateStore]
      have hfun : (fun st => mapIndexes (List.filter (fun p => p.1 ∈ desired ∨ p.1 ∉ rest))
            (mapIndexes (List.filter (fun p => p.1 ≠ i)) st)) =
          mapIndexes (List.filter (fun p => p.1 ∈ desired ∨ p.1 ∉ i :: rest)) := by
        funext st
        simp only [mapIndexes_mapIndexes, mapIndexes]
        rw [List.filter_filter]
        congr 1
        apply List.filter_congr
        intro p _
        by_cases hp : p.1 = i
        · simp [hp, hdes]
        · simp [List.mem_cons, hp]
      rw [hfun]

theorem createIndexesLoop_eq (stn : String) (existing : List String) :
    ∀ (l : List IndexSchema) (db : Database) (st : PersistedStore),
      lookupStore db stn = some st →
      (l.map IndexSchema.name).Nodup →
      (∀ i ∈ l, i.name ∉ existing → alookup st.indexes i.name = none) →
      IndexedDBManager.createIndexesLoop stn existing l db =
        .ok (updateStore db stn (mapIndexes (fun xs => xs ++
          (l.filter (fun i => i.name ∉ existing)).map
            (fun i => (i.name, persistedIndexOf i))))) := by
  intro l
  induction l with
  | nil =>
    intro db st _ _ _
    have hf : (mapIndexes (fun xs : List (String × PersistedIndex) => xs ++
        (([] : List IndexSchema).filter (fun i => i.name ∉ existing)).map
          (fun i => (i.name, persistedIndexOf i)))) = fun st => st := by
      funext st
      simp [mapIndexes]
    simp only [IndexedDBManager.createIndexesLoop]
    rw [hf, updateStore_id]
  | cons idx rest ih =>
    intro db st hst hnd hnone
    simp only [List.map_cons, List.nodup_cons] at hnd
    by_cases hex : idx.name ∈ existing
    · simp only [IndexedDBManager.createIndexesLoop, if_pos hex]
      rw [ih db st hst hnd.2 (fun j hj hje => hnone j (List.mem_cons_of_mem _ hj) hje)]
      have hfil : (idx :: rest).filter (fun i => decide (i.name ∉ existing)) =
          rest.filter (fun i => decide (i.name ∉ existing)) := by
        rw [List.filter_cons]
        simp [hex]
      rw [hfil]
    · have hc := hnone idx (List.mem_cons_self _ _) hex
      have hcr : createIndex db stn idx =
          .ok (updateStore db stn
            (mapIndexes (fun xs => xs ++ [(idx.name, persistedIndexOf idx)]))) := by
        simp [createIndex, hst, hc, persistedIndexOf]
      simp only [IndexedDBManager.createIndexesLoop, if_neg hex, hcr]
      have hst' : lookupStore (updateStore db stn
            (mapIndexes (fun xs => xs ++ [(idx.name, persistedIndexOf idx)]))) stn =
          some (mapIndexes (fun xs => xs ++ [(idx.name, persistedIndexOf idx)]) st) := by
        rw [lookupStore_updateStore_self, hst]
        rfl
      have hcond : ∀ j ∈ rest, j.name ∉ existing →
          alookup (mapIndexes (fun xs => xs ++ [(idx.name, persistedIndexOf idx)]) st).indexes
            j.name = none := by
        intro j hj hje
        have hne : idx.name ≠ j.name :=
          fun h => hnd.1 (h ▸ List.mem_map.mpr ⟨j, hj, rfl⟩)
        show alookup (st.indexes ++ [(idx.name, persistedIndexOf idx)]) j.name = none
        rw [alookup_append_right (hnone j (List.mem_cons_of_mem _ hj) hje)]
        simp [alookup, hne]
      rw [ih _ _ hst' hnd.2 hcond, updateStore_updateStore]
      have hfun : (fun st => mapIndexes (fun xs => xs ++
            (rest.filter (fun i => i.name ∉ existing)).map
              (fun i => (i.name, persistedIndexOf i)))
            (mapIndexes (fun xs => xs ++ [(idx.name, persistedIndexOf idx)]) st)) =
          mapIndexes (fun xs => xs ++
            ((idx :: rest).filter (fun i => i.name ∉ existing)).map
              (fun i => (i.name, persistedIndexOf i))) := by
        funext st
        simp only [mapIndexes_mapIndexes, mapIndexes]
        rw [List.filter_cons]
        simp [hex, List.append_assoc]
      rw [hfun]

/-! ## Reconciliation of a single store schema -/

theorem reconcileStore_spec (exNames : List String) (s : StoreSchema) (db : Database)
    (hsync : s.name ∈ exNames ↔ (lookupStore db s.name).isSome)
    (hwfidx : ∀ st, lookupStore db s.name = some st → (st.indexes.map Prod.fst).Nodup)
    (hdecl : ∀ l, s.indexes = some l → (l.map IndexSchema.name).Nodup) :
    ∃ db', IndexedDBManager.reconcileStore exNames s db = .ok db' ∧
      lookupStore db' s.name = some (reconciledStore (lookupStore db s.name) s) ∧
      (∀ m, m ≠ s.name → lookupStore db' m = lookupStore db m) ∧
      storeNames db' = (if (lookupStore db s.name).isSome then storeNames db
        else storeNames db ++ [s.name]) := by
  by_cases hex : s.name ∈ exNames
  · have hs : (lookupStore db s.name).isSome := hsync.mp hex
    obtain ⟨st, hst⟩ := Option.isSome_iff_exists.mp hs
    have hnd := hwfidx st hst
    cases hidx : s.indexes with
    | none =>
      refine ⟨db, ?_, ?_, fun m _ => rfl, ?_⟩
      · simp [IndexedDBManager.reconcileStore, if_pos hex, hst, hidx]
      · rw [hst]
        simp [reconciledStore, hidx]
      · rw [hst]
        simp
    | some idxs =>
      have hsnap : indexNamesOf db s.name = st.indexes.map Prod.fst := by
        simp [indexNamesOf, hst]
      have hdelpass := deleteIndexesLoop_eq s.name (idxs.map IndexSchema.name)
        (st.indexes.map Prod.fst) db st hst hnd
        (fun i hi _ => (alookup_isSome_iff st.indexes i).mpr hi)
      have hst1 : lookupStore (updateStore db s.name
            (mapIndexes (List.filter (fun p =>
              p.1 ∈ idxs.map IndexSchema.name ∨ p.1 ∉ st.indexes.map Prod.fst)))) s.name =
          some (mapIndexes (List.filter (fun p =>
            p.1 ∈ idxs.map IndexSchema.name ∨ p.1 ∉ st.indexes.map Prod.fst)) st) := by
        rw [lookupStore_updateStore_self, hst]
        rfl
      have hcond : ∀ i ∈ idxs, i.name ∉ st.indexes.map Prod.fst →
          alookup (mapIndexes (List.filter (fun p =>
            p.1 ∈ idxs.map IndexSchema.name ∨ p.1 ∉ st.indexes.map Prod.fst)) st).indexes
            i.name = none := by
        intro i _ hni
        exact alookup_filter_none ((alookup_eq_none_iff st.indexes i.name).mpr hni)
      have hcreatepass := createIndexesLoop_eq s.name (st.indexes.map Prod.fst) idxs
        (updateStore db s.name (mapIndexes (List.filter (fun p =>
          p.1 ∈ idxs.map IndexSchema.name ∨ p.1 ∉ st.indexes.map Prod.fst)))) _
        hst1 (hdecl idxs hidx) hcond
      refine ⟨updateStore (updateStore db s.name (mapIndexes (List.filter (fun p =>
          p.1 ∈ idxs.map IndexSchema.name ∨ p.1 ∉ st.indexes.map Prod.fst)))) s.name
        (mapIndexes (fun xs => xs ++
          (idxs.filter (fun i => i.name ∉ st.indexes.map Prod.fst)).map
            (fun i => (i.name, persistedIndexOf i)))), ?_, ?_, ?_, ?_⟩
      · unfold IndexedDBManager.reconcileStore
        rw [if_pos hex, hst]
        simp only [Option.isSome_some, if_true, hidx, hsnap, hdelpass, hcreatepass]
      · rw [lookupStore_updateStore_self, hst1, hst]
        simp [mapIndexes, reconciledStore, hidx, reconciledIndexes]
        apply List.filter_congr
        intro p hp
        have hmem : p.1 ∈ List.map Prod.fst st.indexes := List.mem_map.mpr ⟨p, hp, rfl⟩
        simp [hmem]
      · intro m hm
        rw [lookupStore_updateStore_ne _ _ _ _ hm, lookupStore_updateStore_ne _ _ _ _ hm]
      · rw [storeNames_updateStore, storeNames_updateStore, hst]
        simp
  · have hnone : lookupStore db s.name = none := by
      rcases h : lookupStore db s.name with _ | st
      · rfl
      · exact absurd (hsync.mpr (by simp [h])) hex
    have hcreate : createObjectStore db s =
        .ok (db ++ [(s.name, ⟨s.keyPath, s.autoIncrement, []⟩)]) := by
      simp [createObjectStore, hnone]
    have hlook0self : lookupStore (db ++ [(s.name, ⟨s.keyPath, s.autoIncrement, []⟩)]) s.name =
        some ⟨s.keyPath, s.autoIncrement, []⟩ := by
      show alookup _ _ = _
      rw [alookup_append_right hnone]
      simp [alookup]
    have hlook0ne : ∀ m, m ≠ s.name →
        lookupStore (db ++ [(s.name, ⟨s.keyPath, s.autoIncrement, []⟩)]) m =
          lookupStore db m := by
      intro m hm
      show alookup _ _ = alookup db m
      rcases h : alookup db m with _ | v
      · rw [alookup_append_right h]
        simp [alookup, Ne.symm hm]
      · exact alookup_append_left h _
    have hnames0 : storeNames (db ++ [(s.name, ⟨s.keyPath, s.autoIncrement, []⟩)]) =
        storeNames db ++ [s.name] := by
      rw [storeNames_append]
      rfl
    cases hidx : s.indexes with
    | none =>
      refine ⟨_, ?_, ?_, hlook0ne, ?_⟩
      · simp [IndexedDBManager.reconcileStore, if_neg hex, hcreate, hidx]
      · rw [hlook0self, hnone]
        simp [reconciledStore, hidx]
      · rw [hnames0, hnone]
        simp
    | some idxs =>
      have hsnap0 : indexNamesOf (db ++ [(s.name, ⟨s.keyPath, s.autoIncrement, []⟩)]) s.name =
          ([] : List String) := by
        simp [indexNamesOf, hlook0self]
      have hcreatepass := createIndexesLoop_eq s.name ([] : List String) idxs
        (db ++ [(s.name, ⟨s.keyPath, s.autoIncrement, []⟩)]) ⟨s.keyPath, s.autoIncrement, []⟩
        hlook0self (hdecl idxs hidx) (fun i _ _ => rfl)
      refine ⟨updateStore (db ++ [(s.name, ⟨s.keyPath, s.autoIncrement, []⟩)]) s.name
        (mapIndexes (fun xs => xs ++
          (idxs.filter (fun i => i.name ∉ ([] : List String))).map
            (fun i => (i.name, persistedIndexOf i)))), ?_, ?_, ?_, ?_⟩
      · simp only [IndexedDBManager.reconcileStore, if_neg hex, hcreate, hidx, hsnap0,
          IndexedDBManager.deleteIndexesLoop, hcreatepass]
      · rw [lookupStore_updateStore_self, hlook0self, hnone]
        simp [mapIndexes, reconciledStore, hidx, reconciledIndexes]
      · intro m hm
        rw [lookupStore_updateStore_ne _ _ _ _ hm]
        exact hlook0ne m hm
      · rw [storeNames_updateStore, hnames0, hnone]
        simp

/-! ## Reconciliation of all store schemas -/

theorem reconcileStoresLoop_spec (exNames : List String) :
    ∀ (S : List StoreSchema) (db : Database),
      (S.map StoreSchema.name).Nodup →
      (∀ s ∈ S, (s.name ∈ exNames ↔ (lookupStore db s.name).isSome)) →
      (∀ s ∈ S, ∀ st, lookupStore db s.name = some st → (st.indexes.map Prod.fst).Nodup) →
      (∀ s ∈ S, ∀ l, s.indexes = some l → (l.map IndexSchema.name).Nodup) →
      ∃ db2, IndexedDBManager.reconcileStoresLoop exNames S db = .ok db2 ∧
        (∀ m, m ∉ S.map StoreSchema.name → lookupStore db2 m = lookupStore db m) ∧
        (∀ s ∈ S, lookupStore db2 s.name = some (reconciledStore (lookupStore db s.name) s)) ∧
        storeNames db2 = storeNames db ++
          ((S.filter (fun t => !(lookupStore db t.name).isSome)).map StoreSchema.name) := by
  intro S
  induction S with
  | nil =>
    intro db _ _ _ _
    exact ⟨db, rfl, fun m _ => rfl, fun s hs => absurd hs (List.not_mem_nil s), by simp⟩
  | cons s rest ih =>
    intro db hnd hsync hwfidx hdecl
    simp only [List.map_cons, List.nodup_cons] at hnd
    obtain ⟨db1, hok1, hself1, hframe1, hnames1⟩ :=
      reconcileStore_spec exNames s db (hsync s (List.mem_cons_self _ _))
        (hwfidx s (List.mem_cons_self _ _)) (hdecl s (List.mem_cons_self _ _))
    have hne : ∀ t ∈ rest, t.name ≠ s.name := by
      intro t ht h
      exact hnd.1 (h ▸ List.mem_map.mpr ⟨t, ht, rfl⟩)
    have hlook1 : ∀ t ∈ rest, lookupStore db1 t.name = lookupStore db t.name :=
      fun t ht => hframe1 t.name (hne t ht)
    obtain ⟨db2, hok2, hframe2, hself2, hnames2⟩ := ih db1 hnd.2
      (fun t ht => by rw [hlook1 t ht]; exact hsync t (List.mem_cons_of_mem _ ht))
      (fun t ht => by rw [hlook1 t ht]; exact hwfidx t (List.mem_cons_of_mem _ ht))
      (fun t ht => hdecl t (List.mem_cons_of_mem _ ht))
    have hfilrest : rest.filter (fun t => !(lookupStore db1 t.name).isSome) =
        rest.filter (fun t => !(lookupStore db t.name).isSome) :=
      List.filter_congr (fun t ht => by rw [hlook1 t ht])
    refine ⟨db2, ?_, ?_, ?_, ?_⟩
    · simp only [IndexedDBManager.reconcileStoresLoop, hok1, hok2]
    · intro m hm
      simp only [List.map_cons, List.mem_cons, not_or] at hm
      rw [hframe2 m hm.2, hframe1 m hm.1]
    · intro t ht
      rcases List.mem_cons.mp ht with h | h
      · subst h
        rw [hframe2 t.name (fun hmem => hnd.1 hmem), hself1]
      · rw [hself2 t h, hlook1 t h]
    · rw [hnames2, hfilrest, hnames1]
      by_cases hs0 : (lookupStore db s.name).isSome
      · rw [if_pos hs0, List.filter_cons]
        simp [hs0]
      · rw [if_neg hs0, List.filter_cons]
        have hnone : lookupStore db s.name = none := by
          rcases h : lookupStore db s.name with _ | v
          · rfl
          · exact absurd (by simp [h]) hs0
        rw [if_pos (show (!(lookupStore db s.name).isSome) = true by simp [hnone])]
        simp

/-! ## Properties of the reconciled index list -/

theorem reconciledIndexes_mem_names (pidx : List (String × PersistedIndex))
    (l : List IndexSchema) (i : String) :
    i ∈ (reconciledIndexes pidx l).map Prod.fst ↔ i ∈ l.map IndexSchema.name := by
  simp only [reconciledIndexes, List.map_append, List.mem_append, List.map_map]
  constructor
  · rintro (h | h)
    · obtain ⟨p, hp, rfl⟩ := List.mem_map.mp h
      have := (List.mem_filter.mp hp).2
      simpa using this
    · obtain ⟨j, hj, rfl⟩ := List.mem_map.mp h
      exact List.mem_map.mpr ⟨j, (List.mem_filter.mp hj).1, rfl⟩
  · intro h
    by_cases hp : i ∈ pidx.map Prod.fst
    · left
      obtain ⟨p, hpp, rfl⟩ := List.mem_map.mp hp
      exact List.mem_map.mpr ⟨p, List.mem_filter.mpr ⟨hpp, by simpa using h⟩, rfl⟩
    · right
      obtain ⟨j, hj, rfl⟩ := List.mem_map.mp h
      exact List.mem_map.mpr ⟨j, List.mem_filter.mpr ⟨hj, by simpa using hp⟩, rfl⟩

theorem reconciledIndexes_alookup_keep (pidx : List (String × PersistedIndex))
    (l : List IndexSchema) (i : String)
    (hil : i ∈ l.map IndexSchema.name) (hip : i ∈ pidx.map Prod.fst) :
    alookup (reconciledIndexes pidx l) i = alookup pidx i := by
  unfold reconciledIndexes
  have h1 : alookup (pidx.filter (fun p => p.1 ∈ l.map IndexSchema.name)) i =
      alookup pidx i :=
    alookup_filter_of_key_true (fun p hp => by simp [hp, hil]) pidx
  obtain ⟨v, hv⟩ := Option.isSome_iff_exists.mp ((alookup_isSome_iff pidx i).mpr hip)
  rw [alookup_append_left (by rw [h1, hv]) _, hv]

theorem reconciledIndexes_nodup (pidx : List (String × PersistedIndex))
    (l : List IndexSchema)
    (hp : (pidx.map Prod.fst).Nodup) (hl : (l.map IndexSchema.name).Nodup) :
    ((reconciledIndexes pidx l).map Prod.fst).Nodup := by
  unfold reconciledIndexes
  rw [List.map_append]
  have hmm : (List.map (fun i => (i.name, persistedIndexOf i))
        (l.filter (fun i => i.name ∉ pidx.map Prod.fst))).map Prod.fst =
      (l.filter (fun i => i.name ∉ pidx.map Prod.fst)).map IndexSchema.name := by
    simp [List.map_map, Function.comp]
  refine List.Nodup.append ?_ ?_ ?_
  · exact List.Nodup.sublist ((List.filter_sublist pidx).map Prod.fst) hp
  · rw [hmm]
    exact List.Nodup.sublist ((List.filter_sublist l).map IndexSchema.name) hl
  · intro a ha hb
    rw [hmm] at hb
    obtain ⟨p, hpp, rfl⟩ := List.mem_map.mp ha
    obtain ⟨j, hj, hjn⟩ := List.mem_map.mp hb
    have : j.name ∉ pidx.map Prod.fst := by simpa using (List.mem_filter.mp hj).2
    exact this (hjn ▸ List.mem_map.mpr ⟨p, (List.mem_filter.mp hpp).1, rfl⟩)

/-! ## The full reconciliation run -/

theorem reconcile_spec (S : List StoreSchema) (db : Database)
    (hwf : WFdb db)
    (hS : (S.map StoreSchema.name).Nodup)
    (hdecl : ∀ s ∈ S, ∀ l, s.indexes = some l → (l.map IndexSchema.name).Nodup) :
    ∃ db2, IndexedDBManager.reconcile S db = .ok db2 ∧
      (∀ m, m ∉ S.map StoreSchema.name → lookupStore db2 m = none) ∧
      (∀ s ∈ S, lookupStore db2 s.name = some (reconciledStore (lookupStore db s.name) s)) ∧
      WFdb db2 := by
  obtain ⟨hwf1, hwf2⟩ := hwf
  have hdel := deleteStores_start db (S.map StoreSchema.name) hwf1
  have hkeep : ∀ n, n ∈ S.map StoreSchema.name →
      lookupStore (db.filter (fun p => p.1 ∈ S.map StoreSchema.name)) n = lookupStore db n :=
    fun n hn => alookup_filter_of_key_true (fun p hp => by simp [hp, hn]) db
  have hdrop : ∀ n, n ∉ S.map StoreSchema.name →
      lookupStore (db.filter (fun p => p.1 ∈ S.map StoreSchema.name)) n = none :=
    fun n hn => alookup_filter_of_key_false (fun p hp => by simp [hp, hn]) db
  have hndd : (storeNames (db.filter (fun p => p.1 ∈ S.map StoreSchema.name))).Nodup :=
    List.Nodup.sublist ((List.filter_sublist db).map Prod.fst) hwf1
  have hsync : ∀ s ∈ S, (s.name ∈ storeNames db ↔
      (lookupStore (db.filter (fun p => p.1 ∈ S.map StoreSchema.name)) s.name).isSome) := by
    intro s hs
    rw [hkeep s.name (List.mem_map.mpr ⟨s, hs, rfl⟩)]
    exact (alookup_isSome_iff db s.name).symm
  have hwfidxd : ∀ s ∈ S, ∀ st,
      lookupStore (db.filter (fun p => p.1 ∈ S.map StoreSchema.name)) s.name = some st →
      (st.indexes.map Prod.fst).Nodup := by
    intro s hs st hst
    rw [hkeep s.name (List.mem_map.mpr ⟨s, hs, rfl⟩)] at hst
    exact hwf2 (s.name, st) (alookup_mem hst)
  obtain ⟨db2, hok, hframe, hself, hnames⟩ :=
    reconcileStoresLoop_spec (storeNames db) S
      (db.filter (fun p => p.1 ∈ S.map StoreSchema.name)) hS hsync hwfidxd hdecl
  have hnd2 : (storeNames db2).Nodup := by
    rw [hnames]
    refine List.Nodup.append hndd ?_ ?_
    · exact List.Nodup.sublist ((List.filter_sublist S).map StoreSchema.name) hS
    · intro a ha hb
      obtain ⟨t, ht, htn⟩ := List.mem_map.mp hb
      have hts : (lookupStore (db.filter (fun p => p.1 ∈ S.map StoreSchema.name)) t.name).isSome
          = false := by simpa using (List.mem_filter.mp ht).2
      have : (lookupStore (db.filter (fun p => p.1 ∈ S.map StoreSchema.name)) a).isSome :=
        (alookup_isSome_iff _ a).mpr ha
      rw [← htn] at this
      rw [hts] at this
      exact absurd this (by simp)
  refine ⟨db2, ?_, ?_, ?_, hnd2, ?_⟩
  · unfold IndexedDBManager.reconcile
    simp only [hdel, hok]
  · intro m hm
    rw [hframe m hm, hdrop m hm]
  · intro s hs
    rw [hself s hs, hkeep s.name (List.mem_map.mpr ⟨s, hs, rfl⟩)]
  · intro p hp
    have hlook : lookupStore db2 p.1 = some p.2 := alookup_of_mem_nodup hnd2 hp
    by_cases hms : p.1 ∈ S.map StoreSchema.name
    · obtain ⟨s, hs, hsname⟩ := List.mem_map.mp hms
      have hs2 := hself s hs
      rw [hsname, hlook] at hs2
      have hp2 : p.2 = reconciledStore
          (lookupStore (db.filter (fun p => p.1 ∈ S.map StoreSchema.name)) p.1) s := by
        exact Option.some.inj hs2
      rw [hp2]
      rcases horig : lookupStore (db.filter (fun p => p.1 ∈ S.map StoreSchema.name)) p.1
          with _ | st
      · rcases hidx : s.indexes with _ | l
        · simp [reconciledStore, hidx]
        · simp only [reconciledStore, hidx]
          exact reconciledIndexes_nodup [] l (by simp) (hdecl s hs l hidx)
      · have hst : lookupStore db p.1 = some st := by
          rw [← hkeep p.1 hms]
          exact horig
        have hstnd := hwf2 (p.1, st) (alookup_mem hst)
        rcases hidx : s.indexes with _ | l
        · simpa [reconciledStore, hidx] using hstnd
        · simp only [reconciledStore, hidx]
          exact reconciledIndexes_nodup st.indexes l hstnd (hdecl s hs l hidx)
    · rw [hframe p.1 hms, hdrop p.1 hms] at hlook
      exact absurd hlook (by simp)

/-! ## Claim theorems -/

/-- Claim C1: for every index content of `N` entries matching the requested
range and direction, and every `offset ≥ 0` and `limit ≥ 0`,
`findByIndexRange` returns exactly `max 0 (min limit (N - offset))` records,
and the returned sequence equals the full ordered scan result sliced at
`[offset, offset + limit)`. -/
theorem findByIndexRange_returns_slice {α : Type} (entries : List α) (offset limit : Nat) :
    FastIndexedDB.findByIndexRange (entries.map CursorStep.entry)
      ⟨some (.fin limit), some offset⟩ = .ok ((entries.drop offset).take limit) ∧
    (((entries.drop offset).take limit).length : Int) =
      max 0 (min (limit : Int) ((entries.length : Int) - (offset : Int))) := by
  constructor
  · have h := FastIndexedDB.rangeLoop_entries_fin offset limit entries 0 0 []
      (Nat.zero_le _) (Nat.zero_le _)
    simpa [FastIndexedDB.findByIndexRange] using h
  · simp only [List.length_take, List.length_drop]
    omega

/-- Claim C6: a cursor `onerror` delivery that the iteration actually
reaches (the entry prefix before it is not long enough to satisfy
`offset + limit` first) rejects the whole call with that error; the
partial results accumulated before it are discarded, never returned. -/
theorem cursor_error_rejects_call {α : Type} (xs : List α) (e : Option String)
    (rest : List (CursorStep α)) (opts : RangeOpts)
    (hreach : ∀ k, opts.limit = some (.fin k) → xs.length ≤ opts.offset.getD 0 + k) :
    FastIndexedDB.findByIndexRange
      (xs.map CursorStep.entry ++ CursorStep.fail e :: rest) opts = .error e := by
  unfold FastIndexedDB.findByIndexRange
  refine FastIndexedDB.rangeLoop_fail (opts.offset.getD 0) (opts.limit.getD .inf) xs e rest
    0 0 [] (Nat.zero_le _) ?_
  intro n hn
  refine ⟨Nat.zero_le _, ?_⟩
  rcases hlim : opts.limit with _ | l
  · rw [hlim] at hn
    simp at hn
  · rw [hlim] at hn
    simp only [Option.getD_some] at hn
    subst hn
    simpa using hreach n (by rw [hlim])

/-- Witness for C6 at a concrete trace: one entry, then a cursor error. -/
theorem cursor_error_rejects_call_witness :
    (∀ k, (RangeOpts.mk (some (.fin 1)) (some 0)).limit = some (.fin k) →
      [(0 : Nat)].length ≤ (RangeOpts.mk (some (.fin 1)) (some 0)).offset.getD 0 + k) ∧
    FastIndexedDB.findByIndexRange
      ([(0 : Nat)].map CursorStep.entry ++ CursorStep.fail (some "boom") :: [])
      ⟨some (.fin 1), some 0⟩ = .error (some "boom") := by
  refine ⟨?_, cursor_error_rejects_call [(0 : Nat)] (some "boom") [] ⟨some (.fin 1), some 0⟩ ?_⟩
  all_goals
    intro k hk
    simp at hk ⊢
    omega

/-- Counterexample for C9: with `limit = 0` the `core.ts` implementation
returns no records while the unnamed variant treats the falsy `0` as "no
limit" and returns every record, so the two implementations disagree. -/
theorem findByIndexRange_variants_differ :
    FastIndexedDB.findByIndexRange [CursorStep.entry (0 : Nat)] ⟨some (.fin 0), none⟩ ≠
      UnnamedFastIndexedDB.findByIndexRange [CursorStep.entry (0 : Nat)] ⟨some (.fin 0), none⟩ := by
  intro h
  have h1 : FastIndexedDB.findByIndexRange [CursorStep.entry (0 : Nat)]
      ⟨some (.fin 0), none⟩ = .ok [] := rfl
  have h2 : UnnamedFastIndexedDB.findByIndexRange [CursorStep.entry (0 : Nat)]
      ⟨some (.fin 0), none⟩ = .ok [0] := rfl
  rw [h1, h2] at h
  simp at h

/-- Claim C9 as amended: the two `findByIndexRange` implementations agree
on every cursor event trace (hence every index content, range and
direction) and every option object whose `limit` is omitted, `Infinity`,
or positive — every case except the literal `limit = 0`. -/
theorem findByIndexRange_variants_agree {α : Type} (steps : List (CursorStep α))
    (opts : RangeOpts) (hlim : ∀ k, opts.limit = some (.fin k) → 1 ≤ k) :
    FastIndexedDB.findByIndexRange steps opts =
      UnnamedFastIndexedDB.findByIndexRange steps opts := by
  obtain ⟨lim, off⟩ := opts
  exact rangeLoop_agree lim off (fun k h => hlim k h) steps 0 0 []

/-- Witness for the amended C9 at a concrete input with `limit = 1`. -/
theorem findByIndexRange_variants_agree_witness :
    (∀ k, (RangeOpts.mk (some (.fin 1)) none).limit = some (.fin k) → 1 ≤ k) ∧
    FastIndexedDB.findByIndexRange [CursorStep.entry (0 : Nat)] ⟨some (.fin 1), none⟩ =
      UnnamedFastIndexedDB.findByIndexRange [CursorStep.entry (0 : Nat)] ⟨some (.fin 1), none⟩ := by
  refine ⟨?_, findByIndexRange_variants_agree [CursorStep.entry (0 : Nat)]
    ⟨some (.fin 1), none⟩ ?_⟩
  all_goals
    intro k hk
    simp at hk
    omega

/-- Claim C3: if an exception occurs during the reconciliation steps of a
version upgrade, the `catch` block aborts the upgrade transaction — the
persisted database is exactly the pre-upgrade one, no partial schema
change survives — and the open attempt rejects with a schema-upgrade
failure message. -/
theorem upgrade_error_aborts (stores : List StoreSchema) (db : Database) (e : String)
    (h : IndexedDBManager.reconcile stores db = .error e) :
    IndexedDBManager.runUpgrade stores db =
      (db, IndexedDBManager.OpenOutcome.rejected ("Schema upgrade failed: " ++ e)) := by
  simp [IndexedDBManager.runUpgrade, h]

/-- Witness for C3: a declaration with two stores of the same name makes
the second `createObjectStore` throw `ConstraintError`; the upgrade leaves
the (empty) database untouched and the open rejects. -/
theorem upgrade_error_aborts_witness :
    (IndexedDBManager.reconcile
        [⟨"a", none, none, none⟩, ⟨"a", none, none, none⟩] [] =
      .error "ConstraintError: object store already exists") ∧
    IndexedDBManager.runUpgrade
        [⟨"a", none, none, none⟩, ⟨"a", none, none, none⟩] [] =
      ([], IndexedDBManager.OpenOutcome.rejected
        ("Schema upgrade failed: " ++ "ConstraintError: object store already exists")) :=
  ⟨rfl, upgrade_error_aborts [⟨"a", none, none, none⟩, ⟨"a", none, none, none⟩] [] _ rfl⟩

/-- Claim C4: every write operation (`add`, `put`, `delete`, `clear`)
reports success exactly when both its own request succeeded and the owning
transaction completed; in particular a request-level success paired with a
transaction `onerror` or `onabort` rejects the call. -/
theorem write_acks_after_commit {κ : Type} :
    (∀ (reqEv : ReqEvent κ) (txEv : TxEnd) (k : κ),
      (FastIndexedDB.add reqEv txEv = .resolved k ↔
        reqEv = .success k ∧ txEv = .complete)) ∧
    (∀ (reqEv : ReqEvent κ) (txEv : TxEnd) (k : κ),
      (FastIndexedDB.put reqEv txEv = .resolved k ↔
        reqEv = .success k ∧ txEv = .complete)) ∧
    (∀ (reqEv : ReqEvent Unit) (txEv : TxEnd),
      (FastIndexedDB.delete reqEv txEv = .resolved () ↔
        reqEv = .success () ∧ txEv = .complete)) ∧
    (∀ (reqEv : ReqEvent Unit) (txEv : TxEnd),
      (FastIndexedDB.clear reqEv txEv = .resolved () ↔
        reqEv = .success () ∧ txEv = .complete)) ∧
    (∀ (k : κ) (e : Option String),
      FastIndexedDB.add (.success k) (.error e) = .rejected e ∧
      FastIndexedDB.add (.success k) (.abort e) =
        .rejected (some (e.getD "Transaction aborted")) ∧
      FastIndexedDB.put (.success k) (.error e) = .rejected e ∧
      FastIndexedDB.delete (.success ()) (.error e) = .rejected e ∧
      FastIndexedDB.clear (.success ()) (.error e) = .rejected e) := by
  refine ⟨fun reqEv txEv k => ?_, fun reqEv txEv k => ?_, fun reqEv txEv => ?_,
    fun reqEv txEv => ?_, fun k e => ⟨rfl, rfl, rfl, rfl, rfl⟩⟩
  · cases reqEv <;> cases txEv <;>
      simp [FastIndexedDB.add, promiseAll2, promisifyRequest, promisifyTransaction]
  · cases reqEv <;> cases txEv <;>
      simp [FastIndexedDB.put, promiseAll2, promisifyRequest, promisifyTransaction]
  · cases reqEv with
    | success u =>
      cases u
      cases txEv <;>
        simp [FastIndexedDB.delete, promiseAll2, promisifyRequest, promisifyTransaction]
    | failure e' =>
      cases txEv <;>
        simp [FastIndexedDB.delete, promiseAll2, promisifyRequest, promisifyTransaction]
  · cases reqEv with
    | success u =>
      cases u
      cases txEv <;>
        simp [FastIndexedDB.clear, promiseAll2, promisifyRequest, promisifyTransaction]
    | failure e' =>
      cases txEv <;>
        simp [FastIndexedDB.clear, promiseAll2, promisifyRequest, promisifyTransaction]

/-- Claim C7 evaluated on the code: from the closed state, a first `getDB`
issues an open request and `this.db` is still unassigned while that open
is in flight (the connection is 'opening'); a second `getDB` entered at
that point issues a second open request, so two opens are in flight at
once — `openDB` only short-circuits on an already-assigned `this.db`,
there is no cached in-flight open promise. -/
theorem concurrent_getDB_issues_duplicate_open :
    (IndexedDBManager.getDBStart
      { db := none, openRequests := 0, closeCalls := 0 }).db = none ∧
    (IndexedDBManager.getDBStart
      { db := none, openRequests := 0, closeCalls := 0 }).openRequests = 1 ∧
    (IndexedDBManager.getDBStart (IndexedDBManager.getDBStart
      { db := none, openRequests := 0, closeCalls := 0 })).openRequests = 2 :=
  ⟨rfl, rfl, rfl⟩

/-- Claim C8: `close()` always succeeds (it is a total function of the
manager state); closing with no open connection is a complete no-op,
closing twice equals closing once, and after a close the handle is
discarded so the next `getDB` issues a fresh open request. -/
theorem close_idempotent_spec :
    (∀ s : ManagerState, s.db = none → IndexedDBManager.close s = s) ∧
    (∀ s : ManagerState, IndexedDBManager.close (IndexedDBManager.close s) =
      IndexedDBManager.close s) ∧
    (∀ s : ManagerState, (IndexedDBManager.close s).db = none) ∧
    (∀ s : ManagerState,
      (IndexedDBManager.getDBStart (IndexedDBManager.close s)).openRequests =
        (IndexedDBManager.close s).openRequests + 1) := by
  refine ⟨?_, ?_, ?_, ?_⟩
  · intro s hnone
    simp [IndexedDBManager.close, hnone]
  · intro s
    rcases h : s.db with _ | v <;> simp [IndexedDBManager.close, h]
  · intro s
    rcases h : s.db with _ | v <;> simp [IndexedDBManager.close, h]
  · intro s
    rcases h : s.db with _ | v <;>
      simp [IndexedDBManager.close, IndexedDBManager.getDBStart, h]

/-- Witness for C8 at concrete states: one already closed, one with an
open handle. -/
theorem close_idempotent_spec_witness :
    ((⟨none, 0, 0⟩ : ManagerState).db = none ∧
      IndexedDBManager.close ⟨none, 0, 0⟩ = ⟨none, 0, 0⟩) ∧
    IndexedDBManager.close (IndexedDBManager.close ⟨some 5, 1, 0⟩) =
      IndexedDBManager.close ⟨some 5, 1, 0⟩ ∧
    (IndexedDBManager.close ⟨some 5, 1, 0⟩).db = none ∧
    (IndexedDBManager.getDBStart (IndexedDBManager.close ⟨some 5, 1, 0⟩)).openRequests =
      (IndexedDBManager.close ⟨some 5, 1, 0⟩).openRequests + 1 :=
  ⟨⟨rfl, close_idempotent_spec.1 ⟨none, 0, 0⟩ rfl⟩,
    close_idempotent_spec.2.1 ⟨some 5, 1, 0⟩,
    close_idempotent_spec.2.2.1 ⟨some 5, 1, 0⟩,
    close_idempotent_spec.2.2.2 ⟨some 5, 1, 0⟩⟩

/-- Claim C10: for every store present in the database and every key
matching no record of that store, `get` resolves with `undefined` rather
than rejecting — the engine's get request succeeds with `undefined` for a
missing key and the code forwards that result untouched. -/
theorem get_missing_key_resolves_undefined {κ V : Type} [DecidableEq κ]
    (stores : List (String × List (κ × V))) (storeName : String) (key : κ)
    (recs : List (κ × V))
    (hs : alookup stores storeName = some recs) (hk : alookup recs key = none) :
    FastIndexedDB.get stores storeName key = .resolved none := by
  simp [FastIndexedDB.get, hs, hk, promisifyRequest]

/-- Witness for C10: a one-store database and a key with no record. -/
theorem get_missing_key_resolves_undefined_witness :
    (alookup [("users", [((1 : Nat), "alice")])] "users" = some [(1, "alice")]) ∧
    (alookup [((1 : Nat), "alice")] (2 : Nat) = none) ∧
    FastIndexedDB.get [("users", [((1 : Nat), "alice")])] "users" (2 : Nat) =
      .resolved none :=
  ⟨rfl, rfl, get_missing_key_resolves_undefined _ _ _ _ rfl rfl⟩

/-- Claim C2: applying schema declaration `S1` to a fresh database (the
version-1 upgrade) and then `S2` (a later version), where both satisfy the
data-model invariants (unique container names, an index collection —
possibly empty — with unique index names per container), yields persisted
container names exactly `S2`'s declared names and, per container,
persisted index names exactly the declared ones — except that an index
name persisted under `S1` and redeclared under `S2` keeps its original
persisted key path and options. -/
theorem upgrade_reconciliation_exact
    (S1 S2 : List StoreSchema) (db1 : Database)
    (h1 : IndexedDBManager.reconcile S1 [] = .ok db1)
    (hS1 : (S1.map StoreSchema.name).Nodup)
    (hdecl1 : ∀ s ∈ S1, ((s.indexes.getD []).map IndexSchema.name).Nodup)
    (hS2 : (S2.map StoreSchema.name).Nodup)
    (hidx2 : ∀ s ∈ S2, s.indexes.isSome)
    (hdecl2 : ∀ s ∈ S2, ((s.indexes.getD []).map IndexSchema.name).Nodup) :
    ∃ db2, IndexedDBManager.reconcile S2 db1 = .ok db2 ∧
      (∀ n, n ∈ storeNames db2 ↔ n ∈ S2.map StoreSchema.name) ∧
      (∀ s ∈ S2, ∀ l, s.indexes = some l →
        ∀ i, (i ∈ indexNamesOf db2 s.name ↔ i ∈ l.map IndexSchema.name)) ∧
      (∀ s ∈ S2, ∀ l, s.indexes = some l → ∀ i, i ∈ l.map IndexSchema.name →
        i ∈ indexNamesOf db1 s.name →
        lookupIdx db2 s.name i = lookupIdx db1 s.name i) := by
  have hconv1 : ∀ s ∈ S1, ∀ l, s.indexes = some l → (l.map IndexSchema.name).Nodup := by
    intro s hs l hl
    have h := hdecl1 s hs
    rw [hl] at h
    simpa using h
  have hconv2 : ∀ s ∈ S2, ∀ l, s.indexes = some l → (l.map IndexSchema.name).Nodup := by
    intro s hs l hl
    have h := hdecl2 s hs
    rw [hl] at h
    simpa using h
  have hwfe : WFdb [] := ⟨List.nodup_nil, fun p hp => absurd hp (List.not_mem_nil p)⟩
  obtain ⟨db1', hok1, _, _, hwf1⟩ := reconcile_spec S1 [] hwfe hS1 hconv1
  rw [h1] at hok1
  have hdb1 : db1 = db1' := Except.ok.inj hok1
  subst hdb1
  obtain ⟨db2, hok2, hnone2, hself2, _⟩ := reconcile_spec S2 db1 hwf1 hS2 hconv2
  refine ⟨db2, hok2, ?_, ?_, ?_⟩
  · intro n
    constructor
    · intro hn
      by_contra hns
      have h0 := hnone2 n hns
      have h2 : (lookupStore db2 n).isSome := (alookup_isSome_iff db2 n).mpr hn
      rw [h0] at h2
      exact absurd h2 (by simp)
    · intro hn
      obtain ⟨s, hs, rfl⟩ := List.mem_map.mp hn
      have hsome : (lookupStore db2 s.name).isSome := by rw [hself2 s hs]; rfl
      exact (alookup_isSome_iff db2 s.name).mp hsome
  · intro s hs l hl i
    have h := hself2 s hs
    rcases horig : lookupStore db1 s.name with _ | st
    · rw [horig] at h
      have heq : indexNamesOf db2 s.name = (reconciledIndexes [] l).map Prod.fst := by
        simp [indexNamesOf, h, reconciledStore, hl]
      rw [heq]
      exact reconciledIndexes_mem_names [] l i
    · rw [horig] at h
      have heq : indexNamesOf db2 s.name = (reconciledIndexes st.indexes l).map Prod.fst := by
        simp [indexNamesOf, h, reconciledStore, hl]
      rw [heq]
      exact reconciledIndexes_mem_names st.indexes l i
  · intro s hs l hl i hil hip
    rcases horig : lookupStore db1 s.name with _ | st
    · simp [indexNamesOf, horig] at hip
    · have h := hself2 s hs
      rw [horig] at h
      have hipst : i ∈ st.indexes.map Prod.fst := by
        simpa [indexNamesOf, horig] using hip
      simp only [lookupIdx, h, horig, reconciledStore, hl]
      exact reconciledIndexes_alookup_keep st.indexes l i hil hipst

/-- Witness for C2: version 1 declares store `u` with index `i` on key
path `a`; version 2 redeclares `i` with key path `b`.  All hypotheses are
discharged by evaluation; the retained index keeps key path `a`. -/
theorem upgrade_reconciliation_exact_witness :
    (IndexedDBManager.reconcile
        [⟨"u", none, none, some [⟨"i", .single "a", none⟩]⟩] [] =
      .ok [("u", ⟨none, none, [("i", ⟨.single "a", none⟩)]⟩)]) ∧
    (([⟨"u", none, none, some [⟨"i", .single "a", none⟩]⟩] :
        List StoreSchema).map StoreSchema.name).Nodup ∧
    (∀ s ∈ ([⟨"u", none, none, some [⟨"i", .single "a", none⟩]⟩] : List StoreSchema),
      ((s.indexes.getD []).map IndexSchema.name).Nodup) ∧
    (([⟨"u", none, none, some [⟨"i", .single "b", none⟩]⟩] :
        List StoreSchema).map StoreSchema.name).Nodup ∧
    (∀ s ∈ ([⟨"u", none, none, some [⟨"i", .single "b", none⟩]⟩] : List StoreSchema),
      s.indexes.isSome) ∧
    (∀ s ∈ ([⟨"u", none, none, some [⟨"i", .single "b", none⟩]⟩] : List StoreSchema),
      ((s.indexes.getD []).map IndexSchema.name).Nodup) ∧
    (∃ db2, IndexedDBManager.reconcile
        [⟨"u", none, none, some [⟨"i", .single "b", none⟩]⟩]
        [("u", ⟨none, none, [("i", ⟨.single "a", none⟩)]⟩)] = .ok db2 ∧
      (∀ n, n ∈ storeNames db2 ↔
        n ∈ ([⟨"u", none, none, some [⟨"i", .single "b", none⟩]⟩] :
          List StoreSchema).map StoreSchema.name) ∧
      (∀ s ∈ ([⟨"u", none, none, some [⟨"i", .single "b", none⟩]⟩] : List StoreSchema),
        ∀ l, s.indexes = some l →
        ∀ i, (i ∈ indexNamesOf db2 s.name ↔ i ∈ l.map IndexSchema.name)) ∧
      (∀ s ∈ ([⟨"u", none, none, some [⟨"i", .single "b", none⟩]⟩] : List StoreSchema),
        ∀ l, s.indexes = some l → ∀ i, i ∈ l.map IndexSchema.name →
        i ∈ indexNamesOf [("u", ⟨none, none, [("i", ⟨.single "a", none⟩)]⟩)] s.name →
        lookupIdx db2 s.name i =
          lookupIdx [("u", ⟨none, none, [("i", ⟨.single "a", none⟩)]⟩)] s.name i)) :=
  ⟨rfl, by decide, by decide, by decide, by decide, by decide,
    upgrade_reconciliation_exact
      [⟨"u", none, none, some [⟨"i", .single "a", none⟩]⟩]
      [⟨"u", none, none, some [⟨"i", .single "b", none⟩]⟩]
      [("u", ⟨none, none, [("i", ⟨.single "a", none⟩)]⟩)]
      rfl (by decide) (by decide) (by decide) (by decide) (by decide)⟩

/-- Claim C5: in any upgrade run over a well-formed database and a
declaration satisfying the data-model invariants, an index whose name is
both persisted and declared for its container is left untouched — its
persisted definition (key path and options) after the upgrade equals the
one before, even when the declaration differs. -/
theorem shared_index_left_untouched (S : List StoreSchema) (db : Database)
    (hwf : WFdb db) (hS : (S.map StoreSchema.name).Nodup)
    (hdecl : ∀ s ∈ S, ((s.indexes.getD []).map IndexSchema.name).Nodup)
    (s : StoreSchema) (hs : s ∈ S) (l : List IndexSchema) (hl : s.indexes = some l)
    (i : String) (hil : i ∈ l.map IndexSchema.name) (hip : i ∈ indexNamesOf db s.name) :
    ∃ db2, IndexedDBManager.reconcile S db = .ok db2 ∧
      lookupIdx db2 s.name i = lookupIdx db s.name i := by
  have hconv : ∀ t ∈ S, ∀ m, t.indexes = some m → (m.map IndexSchema.name).Nodup := by
    intro t ht m hm
    have h := hdecl t ht
    rw [hm] at h
    simpa using h
  obtain ⟨db2, hok, _, hself, _⟩ := reconcile_spec S db hwf hS hconv
  refine ⟨db2, hok, ?_⟩
  rcases horig : lookupStore db s.name with _ | st
  · simp [indexNamesOf, horig] at hip
  · have h := hself s hs
    rw [horig] at h
    have hipst : i ∈ st.indexes.map Prod.fst := by
      simpa [indexNamesOf, horig] using hip
    simp only [lookupIdx, h, horig, reconciledStore, hl]
    exact reconciledIndexes_alookup_keep st.indexes l i hil hipst

/-- Witness for C5: the persisted index `i` of store `u` has key path `a`;
the declaration redeclares `i` with key path `b` and `unique := true`; the
upgrade leaves it at key path `a` with no options. -/
theorem shared_index_left_untouched_witness :
    WFdb [("u", ⟨none, none, [("i", ⟨.single "a", none⟩)]⟩)] ∧
    (([⟨"u", none, none, some [⟨"i", .single "b", some ⟨some true, none⟩⟩]⟩] :
        List StoreSchema).map StoreSchema.name).Nodup ∧
    (∀ s ∈ ([⟨"u", none, none, some [⟨"i", .single "b", some ⟨some true, none⟩⟩]⟩] :
        List StoreSchema), ((s.indexes.getD []).map IndexSchema.name).Nodup) ∧
    ("i" ∈ ([⟨"i", .single "b", some ⟨some true, none⟩⟩] :
        List IndexSchema).map IndexSchema.name) ∧
    ("i" ∈ indexNamesOf [("u", ⟨none, none, [("i", ⟨.single "a", none⟩)]⟩)] "u") ∧
    (∃ db2, IndexedDBManager.reconcile
        [⟨"u", none, none, some [⟨"i", .single "b", some ⟨some true, none⟩⟩]⟩]
        [("u", ⟨none, none, [("i", ⟨.single "a", none⟩)]⟩)] = .ok db2 ∧
      lookupIdx db2 "u" "i" =
        lookupIdx [("u", ⟨none, none, [("i", ⟨.single "a", none⟩)]⟩)] "u" "i") :=
  ⟨⟨by decide, by decide⟩, by decide, by decide, by decide, by decide,
    shared_index_left_untouched
      [⟨"u", none, none, some [⟨"i", .single "b", some ⟨some true, none⟩⟩]⟩]
      [("u", ⟨none, none, [("i", ⟨.single "a", none⟩)]⟩)]
      ⟨by decide, by decide⟩ (by decide) (by decide)
      ⟨"u", none, none, some [⟨"i", .single "b", some ⟨some true, none⟩⟩]⟩
      (by decide) [⟨"i", .single "b", some ⟨some true, none⟩⟩] rfl
      "i" (by decide) (by decide)⟩
